import Mathlib

/-!
Verification development for `syncig` (src/main.go), an incremental one-way
directory synchronizer.  The program walks every subdirectory of a source
root, filters the regular files of each subdirectory (dropping excluded
extensions and zero-size files), sorts the survivors ascending, copies the
ones sorting strictly above the per-directory watermark, and finally rewrites
the watermark sentinel `last_copied.txt` with the greatest copied filename.

Filenames are modelled as `List Char`.  Go compares strings bytewise over
UTF-8, which for valid UTF-8 coincides with codepoint-lexicographic order,
i.e. Mathlib's lexicographic linear order on `List Char`.  The per-directory
run is modelled as the list of filesystem write events it performs, in
program order; errors are modelled with `Except`/flags where a claim needs
them.
-/

namespace Syncig

/-- Filenames (and watermark values) as character lists, ordered
lexicographically exactly as Go orders strings. -/
abbrev FName := List Char

/-- Go's `unicode.IsSpace`: the Unicode `White_Space` code points, written
out explicitly (used by `strings.TrimSpace` in `readLastCopiedFile`,
src/main.go line 57). -/
def goIsSpace (c : Char) : Bool :=
  let n := c.toNat
  (0x9 ≤ n && n ≤ 0xd) || n == 0x20 || n == 0x85 || n == 0xa0 || n == 0x1680 ||
    (0x2000 ≤ n && n ≤ 0x200a) || n == 0x2028 || n == 0x2029 || n == 0x202f ||
    n == 0x205f || n == 0x3000

/-- Go's `strings.TrimSpace` (src/main.go line 57): drop leading and trailing
white space. -/
def trimSpace (s : FName) : FName :=
  ((s.dropWhile goIsSpace).reverse.dropWhile goIsSpace).reverse

/-- ASCII fragment of Go's `strings.ToLower` (src/main.go lines 35, 37);
extension tokens are ASCII in practice, and only the A-Z range changes
under ASCII lowering. -/
def lowerChar (c : Char) : Char :=
  if 'A' ≤ c ∧ c ≤ 'Z' then Char.ofNat (c.toNat + 32) else c

/-- Lowercase a whole string, character by character. -/
def lowerName (s : FName) : FName := s.map lowerChar

/-- `isExcluded` (src/main.go lines 34-42): the extension is lowercased and
compared against every configured excluded extension, itself lowercased. -/
def isExcluded (ext : FName) (excludes : List FName) : Bool :=
  excludes.any (fun e => lowerName e == lowerName ext)

/-- Helper for `extOf`: scan the reversed name, accumulating the suffix until
the last dot (stopping at a path separator), as Go's `filepath.Ext` does. -/
def extAux : FName → FName → FName
  | [], _ => []
  | c :: rest, acc =>
    if c = '/' then [] else if c = '.' then c :: acc else extAux rest (c :: acc)

/-- Go's `filepath.Ext` (used at src/main.go line 100): the suffix of the
name starting at its final dot, empty if there is no dot. -/
def extOf (s : FName) : FName := extAux s.reverse []

/-- One directory entry as seen by `os.ReadDir` plus the data `syncDir`
queries about it: its name, whether it is a regular file, its size and byte
content, and whether the `entry.Info()` call fails (src/main.go line 105). -/
structure FileEntry where
  name : FName
  isRegular : Bool
  size : Nat
  content : List Nat
  infoErr : Bool
  deriving DecidableEq

/-- The candidate filter of `syncDir` (src/main.go lines 97-114), with the
checks in the code's order: regular file, extension not excluded, metadata
readable (an entry whose `Info()` call fails is skipped by `continue`), and
size nonzero. -/
def keepEntry (excludedExt : List FName) (e : FileEntry) : Bool :=
  e.isRegular && !isExcluded (extOf e.name) excludedExt && !e.infoErr &&
    !(e.size == 0)

/-- Names of the entries surviving the candidate filter (src/main.go
lines 97-114). -/
def candidateNames (excludedExt : List FName) (entries : List FileEntry) :
    List FName :=
  (entries.filter (keepEntry excludedExt)).map (·.name)

/-- `readLastCopiedFile` (src/main.go lines 48-58): absence of the sentinel
yields the empty string, otherwise the stored content is whitespace-trimmed. -/
def readLastCopied (stored : Option FName) : FName :=
  match stored with
  | none => []
  | some s => trimSpace s

/-- The selection test of `syncDir` (src/main.go line 125):
`lastCopied == "" || f > lastCopied`. -/
def selectRule (lastCopied f : FName) : Bool :=
  lastCopied == [] || decide (lastCopied < f)

/-- Go's `sort.Strings` (src/main.go line 118): ascending lexicographic sort.
Modelled by insertion sort, which produces the identical ascending list. -/
def sortFiles (files : List FName) : List FName :=
  List.insertionSort (· ≤ ·) files

/-- A filesystem write event performed while processing one directory:
creating the destination directory, copying one file (name and byte
content), or writing the watermark sentinel. -/
inductive Event where
  | mkdirE : Event
  | copyE : FName → List Nat → Event
  | sentinelE : FName → Event
  deriving DecidableEq

/-- Byte content the copy loop reads for a given source filename
(src/main.go lines 137-139). -/
def contentOf (entries : List FileEntry) (n : FName) : List Nat :=
  match entries.find? (fun e => e.name == n) with
  | some e => e.content
  | none => []

/-- The sorted selection a directory run will copy: filtered candidates,
sorted ascending, restricted by the watermark rule (src/main.go
lines 118-128). -/
def toCopyOf (excludedExt : List FName) (entries : List FileEntry)
    (stored : Option FName) : List FName :=
  (sortFiles (candidateNames excludedExt entries)).filter
    (selectRule (readLastCopied stored))

/-- The per-directory body of `syncDir` (src/main.go lines 92-148) as the
list of write events it performs, in program order.  `stored` is the raw
content of the sentinel file before the run (`none` if absent).  An empty
filter result (line 115) or an empty selection (line 129) returns early
with no events; otherwise the destination directory is created, the
selected files are copied in ascending order, and the sentinel is
rewritten with the last (greatest) copied name. -/
def dirEvents (excludedExt : List FName) (entries : List FileEntry)
    (stored : Option FName) : List Event :=
  if (candidateNames excludedExt entries).isEmpty then []
  else if (toCopyOf excludedExt entries stored).isEmpty then []
  else
    Event.mkdirE ::
      ((toCopyOf excludedExt entries stored).map
          (fun f => Event.copyE f (contentOf entries f)) ++
        [Event.sentinelE ((toCopyOf excludedExt entries stored).getLastD [])])

/-- Names copied by a run, in the order the copies happen. -/
def copiedNames (ev : List Event) : List FName :=
  ev.filterMap (fun e =>
    match e with
    | Event.copyE n _ => some n
    | _ => none)

/-- Sentinel (watermark) writes performed by a run, in order. -/
def sentinelWrites (ev : List Event) : List FName :=
  ev.filterMap (fun e =>
    match e with
    | Event.sentinelE v => some v
    | _ => none)

/-- Sentinel content after a run: the last sentinel write if any, else the
prior content (`writeLastCopiedFile` overwrites, src/main.go lines 60-63). -/
def watermarkAfter (stored : Option FName) (ev : List Event) : Option FName :=
  match (sentinelWrites ev).getLast? with
  | some v => some v
  | none => stored

/-- Stored watermark as a string value, absence counting as empty. -/
def storedVal (stored : Option FName) : FName :=
  match stored with
  | none => []
  | some s => s

/-- The reserved sentinel filename (src/main.go lines 49, 61). -/
def sentinelName : FName := "last_copied.txt".data

/-- All writes a run makes to destination file `n`, in order: copies of a
source file of that name, and, when `n` is the sentinel name, sentinel
rewrites. -/
def destWrites (ev : List Event) (n : FName) : List (List Nat ⊕ FName) :=
  ev.filterMap (fun e =>
    match e with
    | Event.mkdirE => none
    | Event.copyE m c => if m == n then some (Sum.inl c) else none
    | Event.sentinelE v => if n == sentinelName then some (Sum.inr v) else none)

/-- A directory run together with its listing phase: `os.ReadDir` may fail
(src/main.go lines 93-96), in which case the error is returned and aborts
the walk; otherwise the per-directory body runs. -/
def dirRunE (excludedExt : List FName) (listing : Except Unit (List FileEntry))
    (stored : Option FName) : Except Unit (List Event) :=
  match listing with
  | Except.error e => Except.error e
  | Except.ok entries => Except.ok (dirEvents excludedExt entries stored)

/-- A whole source tree: each subdirectory path paired with its listing.
Directories are processed independently of one another (src/main.go
line 82: one `WalkDir` callback per directory). -/
def syncTreeEvents (excludedExt : List FName)
    (tree : List (FName × List FileEntry)) (store : FName → Option FName) :
    List (FName × List Event) :=
  tree.map (fun p => (p.1, dirEvents excludedExt p.2 (store p.1)))

/-- The sentinel store after a whole run: a directory present in the tree
gets its watermark updated by its own run, every other key is untouched. -/
def storeAfter (excludedExt : List FName)
    (tree : List (FName × List FileEntry)) (store : FName → Option FName) :
    FName → Option FName :=
  fun d =>
    match tree.find? (fun p => p.1 == d) with
    | some p => watermarkAfter (store d) (dirEvents excludedExt p.2 (store d))
    | none => store d

/-- One item yielded by `filepath.WalkDir` (src/main.go line 82): a path and
whether it is a directory. -/
structure WalkItem where
  path : FName
  isDir : Bool
  deriving DecidableEq

/-- The walk filter of `syncDir` (src/main.go lines 86-88): only directories
other than the source root itself are processed. -/
def walkDirs (root : FName) (items : List WalkItem) : List FName :=
  (items.filter (fun it => it.isDir && !(it.path == root))).map (·.path)

/-- Events of a whole walk: one directory run per processed directory. -/
def walkEvents (excludedExt : List FName) (root : FName)
    (items : List WalkItem) (listingOf : FName → List FileEntry)
    (store : FName → Option FName) : List (FName × List Event) :=
  (walkDirs root items).map
    (fun d => (d, dirEvents excludedExt (listingOf d) (store d)))

/-- `copyFile` (src/main.go lines 65-78): `os.Create` truncates the
destination to empty, then `io.Copy` streams the source bytes.  `fault`
models the underlying I/O: `none` means the stream completes; `some k`
means it fails after `k` bytes were already written (meaningful when
`k < length`, otherwise the stream completed first).  Result: final
destination content and the error flag `copyFile` returns. -/
def copyFile (src : List Nat) (fault : Option Nat) : List Nat × Bool :=
  match fault with
  | none => (src, false)
  | some k => if k < src.length then (src.take k, true) else (src, false)

/-! Helper lemmas about `getLastD`, sortedness, and the selection. -/

theorem getLastD_irrel {l : List FName} (hne : l ≠ []) (x y : FName) :
    l.getLastD x = l.getLastD y := by
  induction l with
  | nil => exact absurd rfl hne
  | cons a t ih =>
    cases t with
    | nil => rfl
    | cons b u => simp only [List.getLastD_cons]

theorem getLastD_mem {l : List FName} (hne : l ≠ []) : l.getLastD [] ∈ l := by
  induction l with
  | nil => exact absurd rfl hne
  | cons a t ih =>
    cases t with
    | nil => simp
    | cons b u =>
      rw [List.getLastD_cons, getLastD_irrel (List.cons_ne_nil b u) a []]
      exact List.mem_cons_of_mem a (ih (List.cons_ne_nil b u))

theorem sorted_le_getLastD {l : List FName} (hp : l.Pairwise (· ≤ ·)) :
    ∀ f ∈ l, f ≤ l.getLastD [] := by
  induction l with
  | nil => intro f hf; cases hf
  | cons a t ih =>
    intro f hf
    have h1 := (List.pairwise_cons.mp hp).1
    have ht := (List.pairwise_cons.mp hp).2
    cases t with
    | nil =>
      rcases List.mem_cons.mp hf with rfl | hft
      · simp
      · cases hft
    | cons b u =>
      rw [List.getLastD_cons, getLastD_irrel (List.cons_ne_nil b u) a []]
      rcases List.mem_cons.mp hf with rfl | hft
      · exact h1 _ (getLastD_mem (List.cons_ne_nil b u))
      · exact ih ht f hft

theorem filter_getLastD {p : FName → Bool} {l : List FName}
    (hs : l.Pairwise (· ≤ ·))
    (hp : ∀ a b, a ≤ b → p a = true → p b = true) :
    l.filter p ≠ [] → (l.filter p).getLastD [] = l.getLastD [] := by
  induction l with
  | nil => intro h; exact absurd rfl h
  | cons a t ih =>
    intro hne
    have h1 := (List.pairwise_cons.mp hs).1
    have ht : t.Pairwise (· ≤ ·) := (List.pairwise_cons.mp hs).2
    cases t with
    | nil =>
      cases hpa : p a with
      | false => simp [List.filter_cons, hpa] at hne
      | true => simp [List.filter_cons, hpa]
    | cons b u =>
      have hlast : (a :: b :: u).getLastD [] = (b :: u).getLastD [] := by
        rw [List.getLastD_cons, getLastD_irrel (List.cons_ne_nil b u) a []]
      have hfne : (b :: u).filter p ≠ [] := by
        intro hnil
        cases hpa : p a with
        | false => simp [List.filter_cons, hpa, hnil] at hne
        | true =>
          have hmem : (b :: u).getLastD [] ∈ b :: u :=
            getLastD_mem (List.cons_ne_nil b u)
          have hle : a ≤ (b :: u).getLastD [] := h1 _ hmem
          have hpl := hp a _ hle hpa
          have hin : (b :: u).getLastD [] ∈ (b :: u).filter p :=
            List.mem_filter.mpr ⟨hmem, hpl⟩
          rw [hnil] at hin
          cases hin
      have ihe := ih ht hfne
      cases hpa : p a with
      | false =>
        rw [hlast, ← ihe]
        congr 1
        simp [List.filter_cons, hpa]
      | true =>
        rw [hlast, ← ihe]
        have hfc : (a :: b :: u).filter p = a :: (b :: u).filter p := by
          simp [List.filter_cons, hpa]
        rw [hfc, List.getLastD_cons]
        exact getLastD_irrel hfne a []

theorem selectRule_mono (w : FName) : ∀ a b, a ≤ b →
    selectRule w a = true → selectRule w b = true := by
  intro a b hab h
  unfold selectRule at h ⊢
  rcases Bool.or_eq_true_iff.mp h with hw | hlt
  · exact Bool.or_eq_true_iff.mpr (Or.inl hw)
  · exact Bool.or_eq_true_iff.mpr
      (Or.inr (decide_eq_true (lt_of_lt_of_le (of_decide_eq_true hlt) hab)))

/-! Basic characterisations of the candidate set and the selection. -/

theorem mem_candidateNames {ex : List FName} {es : List FileEntry} {f : FName} :
    f ∈ candidateNames ex es ↔
      ∃ e, e ∈ es ∧ e.name = f ∧ keepEntry ex e = true := by
  simp only [candidateNames, List.mem_map, List.mem_filter]
  constructor
  · rintro ⟨e, ⟨he, hk⟩, hn⟩
    exact ⟨e, he, hn, hk⟩
  · rintro ⟨e, he, hn, hk⟩
    exact ⟨e, ⟨he, hk⟩, hn⟩

theorem sortFiles_sorted (l : List FName) : (sortFiles l).Pairwise (· ≤ ·) :=
  List.sorted_insertionSort _ l

theorem mem_sortFiles {l : List FName} {f : FName} :
    f ∈ sortFiles l ↔ f ∈ l :=
  (List.perm_insertionSort _ l).mem_iff

theorem toCopyOf_sorted (ex : List FName) (es : List FileEntry)
    (st : Option FName) : (toCopyOf ex es st).Pairwise (· ≤ ·) :=
  (sortFiles_sorted _).filter _

theorem mem_toCopyOf {ex : List FName} {es : List FileEntry}
    {st : Option FName} {f : FName} :
    f ∈ toCopyOf ex es st ↔
      f ∈ candidateNames ex es ∧ selectRule (readLastCopied st) f = true := by
  simp only [toCopyOf, List.mem_filter, mem_sortFiles]

theorem toCopyOf_eq_nil_of_no_candidates {ex : List FName}
    {es : List FileEntry} {st : Option FName}
    (h : candidateNames ex es = []) : toCopyOf ex es st = [] := by
  simp [toCopyOf, sortFiles, h]

/-! Event-list computations for `dirEvents`. -/

theorem copiedNames_copyEs (l : List FName) (c : FName → List Nat) :
    copiedNames (l.map (fun f => Event.copyE f (c f))) = l := by
  induction l with
  | nil => rfl
  | cons a t ih => simp [copiedNames, List.filterMap_cons] at ih ⊢; exact ih

theorem sentinelWrites_copyEs (l : List FName) (c : FName → List Nat) :
    sentinelWrites (l.map (fun f => Event.copyE f (c f))) = [] := by
  induction l with
  | nil => rfl
  | cons a t ih => simp [sentinelWrites, List.filterMap_cons, ih]

theorem copiedNames_dirEvents (ex : List FName) (es : List FileEntry)
    (st : Option FName) :
    copiedNames (dirEvents ex es st) = toCopyOf ex es st := by
  unfold dirEvents
  by_cases h1 : (candidateNames ex es).isEmpty
  · rw [if_pos h1]
    rw [toCopyOf_eq_nil_of_no_candidates (List.isEmpty_iff.mp h1)]
    rfl
  · rw [if_neg h1]
    by_cases h2 : (toCopyOf ex es st).isEmpty
    · rw [if_pos h2, List.isEmpty_iff.mp h2]
      rfl
    · rw [if_neg h2]
      have h3 := copiedNames_copyEs (toCopyOf ex es st) (contentOf es)
      simp only [copiedNames, List.filterMap_cons, List.filterMap_append,
        List.filterMap_nil, List.append_nil] at h3 ⊢
      exact h3

theorem sentinelWrites_dirEvents (ex : List FName) (es : List FileEntry)
    (st : Option FName) :
    sentinelWrites (dirEvents ex es st) =
      if (toCopyOf ex es st).isEmpty then []
      else [(toCopyOf ex es st).getLastD []] := by
  unfold dirEvents
  by_cases h1 : (candidateNames ex es).isEmpty
  · rw [if_pos h1]
    rw [if_pos (by
      rw [toCopyOf_eq_nil_of_no_candidates (List.isEmpty_iff.mp h1)]; rfl)]
    rfl
  · rw [if_neg h1]
    by_cases h2 : (toCopyOf ex es st).isEmpty
    · rw [if_pos h2, if_pos h2]
      rfl
    · rw [if_neg h2, if_neg h2]
      have h3 := sentinelWrites_copyEs (toCopyOf ex es st) (contentOf es)
      simp only [sentinelWrites, List.filterMap_cons, List.filterMap_append] at h3 ⊢
      simp [h3]

theorem dirEvents_of_toCopy_ne_nil {ex : List FName} {es : List FileEntry}
    {st : Option FName} (h : toCopyOf ex es st ≠ []) :
    dirEvents ex es st =
      Event.mkdirE ::
        ((toCopyOf ex es st).map
            (fun f => Event.copyE f (contentOf es f)) ++
          [Event.sentinelE ((toCopyOf ex es st).getLastD [])]) := by
  have h1 : ¬ (candidateNames ex es).isEmpty := by
    intro hemp
    exact h (toCopyOf_eq_nil_of_no_candidates (List.isEmpty_iff.mp hemp))
  have h2 : ¬ (toCopyOf ex es st).isEmpty := by
    intro hemp
    exact h (List.isEmpty_iff.mp hemp)
  unfold dirEvents
  rw [if_neg h1, if_neg h2]

theorem dirEvents_of_toCopy_nil {ex : List FName} {es : List FileEntry}
    {st : Option FName} (h : toCopyOf ex es st = []) :
    dirEvents ex es st = [] := by
  unfold dirEvents
  by_cases h1 : (candidateNames ex es).isEmpty
  · rw [if_pos h1]
  · rw [if_neg h1, if_pos (by rw [h]; rfl)]

theorem watermarkAfter_dirEvents (ex : List FName) (es : List FileEntry)
    (st : Option FName) :
    watermarkAfter st (dirEvents ex es st) =
      if (toCopyOf ex es st).isEmpty then st
      else some ((toCopyOf ex es st).getLastD []) := by
  unfold watermarkAfter
  rw [sentinelWrites_dirEvents]
  by_cases h2 : (toCopyOf ex es st).isEmpty
  · rw [if_pos h2, if_pos h2]
    rfl
  · rw [if_neg h2, if_neg h2]
    rfl

theorem selectRule_eq_true {w f : FName} :
    selectRule w f = true ↔ (w = [] ∨ w < f) := by
  simp [selectRule]

theorem readLastCopied_eq_trim (st : Option FName) :
    readLastCopied st = trimSpace (storedVal st) := by
  cases st <;> rfl

/-- C1: for every source subdirectory, given the watermark `W` the run reads
for it (empty string when no sentinel exists) and the filtered candidate
set, the copied files are exactly the candidates `f` with `f > W` (all of
them when `W` is empty), and they are copied in ascending lexicographic
order of filename. -/
theorem C1_selection_correct (ex : List FName) (es : List FileEntry)
    (st : Option FName) :
    (∀ f, f ∈ copiedNames (dirEvents ex es st) ↔
        f ∈ candidateNames ex es ∧
          (readLastCopied st = [] ∨ readLastCopied st < f)) ∧
    (copiedNames (dirEvents ex es st)).Pairwise (· ≤ ·) := by
  constructor
  · intro f
    rw [copiedNames_dirEvents, mem_toCopyOf, selectRule_eq_true]
  · rw [copiedNames_dirEvents]
    exact toCopyOf_sorted ex es st

/-- C3 amended: provided the stored sentinel value equals its
whitespace-trimmed form (which holds whenever the previously stored
filename carries no surrounding whitespace), a run never lowers the stored
watermark: whenever the run rewrites the sentinel, the new value is a
selected filename, hence above the value the run read. -/
theorem C3_monotonic (ex : List FName) (es : List FileEntry)
    (st : Option FName)
    (h : trimSpace (storedVal st) = storedVal st) :
    storedVal st ≤ storedVal (watermarkAfter st (dirEvents ex es st)) := by
  rw [watermarkAfter_dirEvents]
  by_cases h2 : (toCopyOf ex es st).isEmpty
  · rw [if_pos h2]
  · rw [if_neg h2]
    have hne : toCopyOf ex es st ≠ [] := fun hh => by
      rw [hh] at h2; exact h2 rfl
    have hwmem : (toCopyOf ex es st).getLastD [] ∈ toCopyOf ex es st :=
      getLastD_mem hne
    have hsel := (mem_toCopyOf.mp hwmem).2
    have hread : readLastCopied st = storedVal st := by
      rw [readLastCopied_eq_trim, h]
    rcases selectRule_eq_true.mp hsel with hw | hw
    · rw [hread] at hw
      rw [hw]
      exact List.nil_le
    · rw [hread] at hw
      exact le_of_lt hw

/-- C3 witness: a run over a directory holding `b.txt`, starting from the
stored watermark `a.txt`, ends with a watermark at least `a.txt`. -/
theorem C3_monotonic_witness :
    storedVal (some "a.txt".data) ≤
      storedVal (watermarkAfter (some "a.txt".data)
        (dirEvents [] [⟨"b.txt".data, true, 1, [7], false⟩]
          (some "a.txt".data))) :=
  C3_monotonic [] [⟨"b.txt".data, true, 1, [7], false⟩]
    (some "a.txt".data) (by decide)

/-- C3 counterexample: with the stored watermark `"b "` (trailing space, as
written by a prior run that copied a file of that name), a run over a
directory holding only the file `b\x01` lowers the stored watermark:
the run reads the trimmed value `"b"`, selects `b\x01 > "b"`, and stores
`b\x01 < "b "`. -/
theorem C3_counterexample :
    storedVal (watermarkAfter (some "b ".data)
        (dirEvents [] [⟨['b', Char.ofNat 1], true, 1, [7], false⟩]
          (some "b ".data))) <
      storedVal (some "b ".data) := by decide

/-- C5: a file is copied only if some directory entry of that name is a
regular file whose extension is not excluded (case-insensitively), whose
metadata is readable, and whose size is nonzero; in particular a file
whose extension is excluded is never copied regardless of size or name,
and a file all of whose entries have size zero is never copied. -/
theorem C5_excluded_never_copied (ex : List FName) (es : List FileEntry)
    (st : Option FName) :
    (∀ f, f ∈ copiedNames (dirEvents ex es st) →
      ∃ e, e ∈ es ∧ e.name = f ∧ e.isRegular = true ∧
        isExcluded (extOf f) ex = false ∧ e.infoErr = false ∧ e.size ≠ 0) ∧
    (∀ f, isExcluded (extOf f) ex = true →
      f ∉ copiedNames (dirEvents ex es st)) ∧
    (∀ f, (∀ e ∈ es, e.name = f → e.size = 0) →
      f ∉ copiedNames (dirEvents ex es st)) := by
  have hnec : ∀ f, f ∈ copiedNames (dirEvents ex es st) →
      ∃ e, e ∈ es ∧ e.name = f ∧ e.isRegular = true ∧
        isExcluded (extOf f) ex = false ∧ e.infoErr = false ∧ e.size ≠ 0 := by
    intro f hmem
    rw [copiedNames_dirEvents] at hmem
    have hc := (mem_toCopyOf.mp hmem).1
    rcases mem_candidateNames.mp hc with ⟨e, he, hname, hk⟩
    simp only [keepEntry, Bool.and_eq_true, Bool.not_eq_true'] at hk
    refine ⟨e, he, hname, hk.1.1.1, ?_, hk.1.2, ?_⟩
    · rw [← hname]
      exact hk.1.1.2
    · intro hz
      rw [hz] at hk
      exact absurd hk.2 (by simp)
  refine ⟨hnec, ?_, ?_⟩
  · intro f hexc hmem
    rcases hnec f hmem with ⟨e, _, _, _, hfalse, _, _⟩
    rw [hexc] at hfalse
    cases hfalse
  · intro f hall hmem
    rcases hnec f hmem with ⟨e, he, hname, _, _, _, hsz⟩
    exact hsz (hall e he hname)

/-- C5 witness: `a.log` is not copied under excluded set `[".LOG"]`
(case-insensitive match), even though it is a nonzero regular file. -/
theorem C5_excluded_never_copied_witness :
    "a.log".data ∉ copiedNames (dirEvents [".LOG".data]
      [⟨"a.log".data, true, 5, [2], false⟩] none) :=
  (C5_excluded_never_copied [".LOG".data]
    [⟨"a.log".data, true, 5, [2], false⟩] none).2.1 "a.log".data (by decide)

/-- C6: either the copy batch is empty and no sentinel write happens, or
the run's events end with a single sentinel write, placed after every copy,
whose value is the greatest copied filename. -/
theorem C6_sentinel_write (ex : List FName) (es : List FileEntry)
    (st : Option FName) :
    (copiedNames (dirEvents ex es st) = [] ∧
      sentinelWrites (dirEvents ex es st) = []) ∨
    (∃ w pre, dirEvents ex es st = pre ++ [Event.sentinelE w] ∧
      sentinelWrites pre = [] ∧ w ∈ copiedNames (dirEvents ex es st) ∧
      ∀ f ∈ copiedNames (dirEvents ex es st), f ≤ w) := by
  by_cases h2 : (toCopyOf ex es st).isEmpty
  · left
    have he : toCopyOf ex es st = [] := List.isEmpty_iff.mp h2
    rw [copiedNames_dirEvents, sentinelWrites_dirEvents, if_pos h2, he]
    exact ⟨rfl, rfl⟩
  · right
    have hne : toCopyOf ex es st ≠ [] := fun hh => by
      rw [hh] at h2; exact h2 rfl
    refine ⟨(toCopyOf ex es st).getLastD [],
      Event.mkdirE :: (toCopyOf ex es st).map
        (fun f => Event.copyE f (contentOf es f)), ?_, ?_, ?_, ?_⟩
    · rw [dirEvents_of_toCopy_ne_nil hne, List.cons_append]
    · have h3 := sentinelWrites_copyEs (toCopyOf ex es st) (contentOf es)
      simp only [sentinelWrites, List.filterMap_cons] at h3 ⊢
      exact h3
    · rw [copiedNames_dirEvents]
      exact getLastD_mem hne
    · rw [copiedNames_dirEvents]
      exact sorted_le_getLastD (toCopyOf_sorted ex es st)

/-- C7: a run that copies nothing performs no write event at all: no
destination directory creation and no sentinel write, so the prior
watermark (also an absent one) is untouched. -/
theorem C7_no_residue (ex : List FName) (es : List FileEntry)
    (st : Option FName) (h : copiedNames (dirEvents ex es st) = []) :
    Event.mkdirE ∉ dirEvents ex es st ∧
    sentinelWrites (dirEvents ex es st) = [] ∧
    watermarkAfter st (dirEvents ex es st) = st := by
  rw [copiedNames_dirEvents] at h
  have he : dirEvents ex es st = [] := dirEvents_of_toCopy_nil h
  rw [he]
  exact ⟨List.not_mem_nil _, rfl, rfl⟩

/-- C7 witness: a directory whose only file is zero-size yields no candidates,
hence no events. -/
theorem C7_no_residue_witness :
    Event.mkdirE ∉ dirEvents [] [⟨"a.txt".data, true, 0, [], false⟩] none ∧
    sentinelWrites (dirEvents [] [⟨"a.txt".data, true, 0, [], false⟩] none)
      = [] ∧
    watermarkAfter none
      (dirEvents [] [⟨"a.txt".data, true, 0, [], false⟩] none) = none :=
  C7_no_residue [] [⟨"a.txt".data, true, 0, [], false⟩] none (by decide)

/-- Key step for idempotence: when every candidate filename is nonempty and
unchanged by whitespace trimming, a directory run starting from the
watermark left behind by the previous run over the same entries selects
nothing. -/
theorem toCopyOf_second_run (ex : List FName) (es : List FileEntry)
    (st : Option FName)
    (hn : ∀ f ∈ candidateNames ex es, trimSpace f = f ∧ f ≠ []) :
    toCopyOf ex es (watermarkAfter st (dirEvents ex es st)) = [] := by
  rw [watermarkAfter_dirEvents]
  by_cases h2 : (toCopyOf ex es st).isEmpty
  · rw [if_pos h2]
    exact List.isEmpty_iff.mp h2
  · rw [if_neg h2]
    have hne : toCopyOf ex es st ≠ [] := fun hh => by
      rw [hh] at h2; exact h2 rfl
    set w := (toCopyOf ex es st).getLastD [] with hwdef
    have hwmem : w ∈ toCopyOf ex es st := getLastD_mem hne
    have hwc : w ∈ candidateNames ex es := (mem_toCopyOf.mp hwmem).1
    have hwt := hn _ hwc
    have hwmax : w = (sortFiles (candidateNames ex es)).getLastD [] := by
      rw [hwdef]
      exact filter_getLastD (sortFiles_sorted _) (selectRule_mono _) hne
    unfold toCopyOf
    rw [show readLastCopied (some w) = trimSpace w from rfl, hwt.1]
    apply List.filter_eq_nil_iff.mpr
    intro f hf hsel
    have hfle : f ≤ w := by
      rw [hwmax]
      exact sorted_le_getLastD (sortFiles_sorted _) f hf
    rcases selectRule_eq_true.mp hsel with h | h
    · exact hwt.2 h
    · exact absurd h (not_lt_of_le hfle)

/-- Looking up a key in an association list with distinct keys finds the
listed pair. -/
theorem find?_of_keys_nodup : ∀ {tree : List (FName × List FileEntry)},
    (tree.map Prod.fst).Nodup → ∀ {p : FName × List FileEntry}, p ∈ tree →
    tree.find? (fun r => r.1 == p.1) = some p := by
  intro tree
  induction tree with
  | nil => intro _ p hp; cases hp
  | cons hd tl ih =>
    intro hk p hp
    rw [List.map_cons] at hk
    rcases List.mem_cons.mp hp with rfl | htl
    · exact List.find?_cons_of_pos _ (by simp)
    · have hne : (hd.1 == p.1) = false := by
        apply beq_eq_false_iff_ne.mpr
        intro he
        apply (List.nodup_cons.mp hk).1
        rw [he]
        exact List.mem_map.mpr ⟨p, htl, rfl⟩
      rw [List.find?_cons_of_neg _ (by simp [hne]), ih (List.nodup_cons.mp hk).2 htl]

/-- C2 amended: running the sync twice with the identical configuration and
source tree copies nothing on the second run, provided the subdirectory
paths are distinct and every candidate filename is nonempty and carries no
leading or trailing whitespace (so that the sentinel value is read back
unchanged). -/
theorem C2_idempotent (ex : List FName) (tree : List (FName × List FileEntry))
    (store : FName → Option FName)
    (hk : (tree.map Prod.fst).Nodup)
    (hn : ∀ p ∈ tree, ∀ f ∈ candidateNames ex p.2, trimSpace f = f ∧ f ≠ []) :
    ∀ q ∈ syncTreeEvents ex tree (storeAfter ex tree store),
      copiedNames q.2 = [] := by
  intro q hq
  rcases List.mem_map.mp hq with ⟨p, hp, rfl⟩
  rw [copiedNames_dirEvents]
  show toCopyOf ex p.2 (storeAfter ex tree store p.1) = []
  unfold storeAfter
  rw [find?_of_keys_nodup hk hp]
  exact toCopyOf_second_run ex p.2 (store p.1) (hn p hp)

/-- C2 witness: one directory with one ordinary file; after the first run
has stored its watermark, the second run over the unchanged source copies
nothing. -/
theorem C2_idempotent_witness :
    copiedNames (dirEvents [] [⟨"a.txt".data, true, 1, [65], false⟩]
      (storeAfter [] [(['d'], [⟨"a.txt".data, true, 1, [65], false⟩])]
        (fun _ => none) ['d'])) = [] :=
  C2_idempotent [] [(['d'], [⟨"a.txt".data, true, 1, [65], false⟩])]
    (fun _ => none) (by decide) (by decide)
    (['d'], dirEvents [] [⟨"a.txt".data, true, 1, [65], false⟩]
      (storeAfter [] [(['d'], [⟨"a.txt".data, true, 1, [65], false⟩])]
        (fun _ => none) ['d'])) (by decide)

/-- C2 counterexample: a candidate file named `"a "` (trailing space) defeats
idempotence as claimed for every source tree: the first run stores the
sentinel value `"a "`, the second run reads it back trimmed to `"a"`, and
since `"a " > "a"` the unchanged file is copied again. -/
theorem C2_counterexample :
    ∃ q ∈ syncTreeEvents [] [(['d'], [⟨"a ".data, true, 1, [65], false⟩])]
        (storeAfter [] [(['d'], [⟨"a ".data, true, 1, [65], false⟩])]
          (fun _ => none)),
      copiedNames q.2 ≠ [] := by decide

/-- C4 counterexample: an entry whose metadata read fails is skipped by
`continue` (src/main.go lines 105-108): the run is not aborted, and the
remaining entries of the directory are still processed and copied. -/
theorem C4_counterexample :
    (∃ e ∈ [(⟨"a.txt".data, true, 1, [7], true⟩ : FileEntry),
        ⟨"b.txt".data, true, 1, [8], false⟩], e.infoErr = true) ∧
    (dirRunE [] (Except.ok [⟨"a.txt".data, true, 1, [7], true⟩,
        ⟨"b.txt".data, true, 1, [8], false⟩]) none).toOption =
      some [Event.mkdirE, Event.copyE "b.txt".data [8],
        Event.sentinelE "b.txt".data] := by decide

/-- C4 amended: an error listing the directory (`os.ReadDir`) aborts the
sync, while an error reading an individual entry's metadata
(`entry.Info()`) only drops that entry from the candidate set, the rest of
the directory being processed as usual. -/
theorem C4_error_handling (ex : List FName) (es : List FileEntry)
    (st : Option FName) :
    dirRunE ex (Except.error ()) st = Except.error () ∧
    candidateNames ex (es.filter (fun e => !e.infoErr)) =
      candidateNames ex es := by
  refine ⟨rfl, ?_⟩
  unfold candidateNames
  rw [List.filter_filter]
  congr 1
  apply List.filter_congr
  intro e _
  cases he : e.infoErr <;> simp [keepEntry, he]

/-- C8 counterexample: a copy failing mid-stream leaves the destination
holding a nonempty strict prefix of the source bytes — partially-written
content does remain on failure. -/
theorem C8_counterexample :
    copyFile [1, 2] (some 1) = ([1], true) ∧
    ([1] : List Nat) ≠ [] ∧ ([1] : List Nat) ≠ [1, 2] := by decide

/-- C8 amended: on success the destination holds exactly the full source
content; on failure the copy reports the error (so the sync aborts), but
the destination may be left holding a prefix of the source content. -/
theorem C8_copy_full_or_fails (src : List Nat) (fault : Option Nat) :
    ((copyFile src fault).2 = false → (copyFile src fault).1 = src) ∧
    ((copyFile src fault).2 = true →
      ∃ k, k < src.length ∧ (copyFile src fault).1 = src.take k) := by
  cases fault with
  | none => exact ⟨fun _ => rfl, fun h => by cases h⟩
  | some k =>
    by_cases hk : k < src.length
    · refine ⟨fun h => ?_, fun _ => ⟨k, hk, ?_⟩⟩
      · rw [copyFile, if_pos hk] at h
        cases h
      · rw [copyFile, if_pos hk]
    · refine ⟨fun _ => ?_, fun h => ?_⟩
      · rw [copyFile, if_neg hk]
      · rw [copyFile, if_neg hk] at h
        cases h

/-- C8 witness: a fault-free copy transfers the full content, and the
faulting copy of the counterexample leaves a take-prefix. -/
theorem C8_copy_full_or_fails_witness :
    (copyFile [1, 2] none).1 = [1, 2] ∧
    ∃ k, k < ([1, 2] : List Nat).length ∧
      (copyFile [1, 2] (some 1)).1 = ([1, 2] : List Nat).take k :=
  ⟨(C8_copy_full_or_fails [1, 2] none).1 rfl,
    (C8_copy_full_or_fails [1, 2] (some 1)).2 rfl⟩

theorem destWrites_append (ev1 ev2 : List Event) (n : FName) :
    destWrites (ev1 ++ ev2) n = destWrites ev1 n ++ destWrites ev2 n := by
  simp [destWrites]

theorem destWrites_sentinel_single (w : FName) :
    destWrites [Event.sentinelE w] sentinelName = [Sum.inr w] := by
  simp [destWrites, List.filterMap_cons]

/-- C9: the candidate filter applies no special-casing to the reserved
sentinel name: a regular, nonzero source file named `last_copied.txt`
whose extension is not excluded is selected and copied like any other
candidate, and the last write the run makes to the destination file
`last_copied.txt` is the sentinel rewrite carrying the greatest copied
filename. -/
theorem C9_sentinel_not_special (ex : List FName) (es : List FileEntry)
    (st : Option FName)
    (h : ∃ e ∈ es, e.name = sentinelName ∧ e.isRegular = true ∧
      e.infoErr = false ∧ e.size ≠ 0)
    (hex : isExcluded (extOf sentinelName) ex = false)
    (hsel : selectRule (readLastCopied st) sentinelName = true) :
    sentinelName ∈ copiedNames (dirEvents ex es st) ∧
    ∃ w, (destWrites (dirEvents ex es st) sentinelName).getLast? =
        some (Sum.inr w) ∧
      w ∈ copiedNames (dirEvents ex es st) ∧
      ∀ f ∈ copiedNames (dirEvents ex es st), f ≤ w := by
  rcases h with ⟨e, he, hname, hreg, herr, hsz⟩
  have hc : sentinelName ∈ candidateNames ex es := by
    apply mem_candidateNames.mpr
    refine ⟨e, he, hname, ?_⟩
    unfold keepEntry
    rw [hname]
    simp [hreg, herr, hex, hsz]
  have hmem : sentinelName ∈ toCopyOf ex es st := mem_toCopyOf.mpr ⟨hc, hsel⟩
  have hne : toCopyOf ex es st ≠ [] := fun hh => by
    rw [hh] at hmem; cases hmem
  refine ⟨by rw [copiedNames_dirEvents]; exact hmem,
    (toCopyOf ex es st).getLastD [], ?_, ?_, ?_⟩
  · rw [dirEvents_of_toCopy_ne_nil hne, ← List.cons_append, destWrites_append,
      destWrites_sentinel_single]
    exact List.getLast?_concat _
  · rw [copiedNames_dirEvents]
    exact getLastD_mem hne
  · rw [copiedNames_dirEvents]
    exact sorted_le_getLastD (toCopyOf_sorted ex es st)

/-- C9 witness: a source directory holding `last_copied.txt` and `zz.txt`;
both are copied, and the final write to the destination `last_copied.txt`
is the sentinel value `zz.txt`, the greatest copied name. -/
theorem C9_sentinel_not_special_witness :
    sentinelName ∈ copiedNames (dirEvents []
      [⟨sentinelName, true, 3, [1, 2, 3], false⟩,
        ⟨"zz.txt".data, true, 1, [0], false⟩] none) ∧
    ∃ w, (destWrites (dirEvents []
        [⟨sentinelName, true, 3, [1, 2, 3], false⟩,
          ⟨"zz.txt".data, true, 1, [0], false⟩] none) sentinelName).getLast? =
        some (Sum.inr w) ∧
      w ∈ copiedNames (dirEvents []
        [⟨sentinelName, true, 3, [1, 2, 3], false⟩,
          ⟨"zz.txt".data, true, 1, [0], false⟩] none) ∧
      ∀ f ∈ copiedNames (dirEvents []
        [⟨sentinelName, true, 3, [1, 2, 3], false⟩,
          ⟨"zz.txt".data, true, 1, [0], false⟩] none), f ≤ w :=
  C9_sentinel_not_special []
    [⟨sentinelName, true, 3, [1, 2, 3], false⟩,
      ⟨"zz.txt".data, true, 1, [0], false⟩] none
    (by decide) (by decide) (by decide)

/-- C10: in every run, over an arbitrary walk of the source tree,
non-directory items — in particular regular files directly in the source
root — are never processed: removing every non-directory item from the
walk leaves both the processed-directory list and the produced events
unchanged (so a file item contributes no destination file, no destination
directory and no watermark), every processed directory is a directory
item other than the root itself, and every event the run produces is
keyed by a processed directory. -/
theorem C10_root_files_ignored (ex : List FName) (root : FName)
    (items : List WalkItem) (listingOf : FName → List FileEntry)
    (store : FName → Option FName) :
    (walkDirs root items = walkDirs root (items.filter (fun it => it.isDir)) ∧
      walkEvents ex root items listingOf store =
        walkEvents ex root (items.filter (fun it => it.isDir))
          listingOf store) ∧
    (∀ p ∈ walkDirs root items,
      p ≠ root ∧ ∃ it ∈ items, it.path = p ∧ it.isDir = true) ∧
    (∀ q ∈ walkEvents ex root items listingOf store,
      q.1 ∈ walkDirs root items) := by
  have hdirs : walkDirs root items =
      walkDirs root (items.filter (fun it => it.isDir)) := by
    unfold walkDirs
    rw [List.filter_filter]
    congr 1
    apply List.filter_congr
    intro it _
    cases hd : it.isDir <;> simp [hd]
  refine ⟨⟨hdirs, ?_⟩, ?_, ?_⟩
  · unfold walkEvents
    rw [hdirs]
  · intro p hp
    rcases List.mem_map.mp hp with ⟨it, hit, rfl⟩
    have hmem := (List.mem_filter.mp hit).1
    have hpred := (List.mem_filter.mp hit).2
    simp only [Bool.and_eq_true, Bool.not_eq_true'] at hpred
    exact ⟨beq_eq_false_iff_ne.mp hpred.2, it, hmem, rfl, hpred.1⟩
  · intro q hq
    rcases List.mem_map.mp hq with ⟨d, hd, rfl⟩
    exact hd

/-- C10 witness: a mixed walk — the root, one root-level regular file, and
one subdirectory — produces exactly the same events as the walk with the
file item removed: the root-level file contributes nothing, while the
subdirectory is still processed. -/
theorem C10_root_files_ignored_witness :
    walkEvents [] "/src".data
        [⟨"/src".data, true⟩, ⟨"/src/a.txt".data, false⟩, ⟨"/src/d".data, true⟩]
        (fun _ => [⟨"f.txt".data, true, 1, [7], false⟩]) (fun _ => none) =
      walkEvents [] "/src".data
        ([⟨"/src".data, true⟩, ⟨"/src/a.txt".data, false⟩,
            ⟨"/src/d".data, true⟩].filter (fun it => it.isDir))
        (fun _ => [⟨"f.txt".data, true, 1, [7], false⟩]) (fun _ => none) :=
  (C10_root_files_ignored [] "/src".data
    [⟨"/src".data, true⟩, ⟨"/src/a.txt".data, false⟩, ⟨"/src/d".data, true⟩]
    (fun _ => [⟨"f.txt".data, true, 1, [7], false⟩]) (fun _ => none)).1.2

end Syncig
